import Mathlib

/-!
Verification development for the lazy sequence adapter of the arm5server
repository.

The repository exposes a pull-based iteration protocol: a source is a value
with a pull operation returning either an element or an exhaustion signal,
and optional close-normally / close-with-error operations.  The adapter
(`IteratorHelper` in the source tree) wraps such a source and layers lazy
chain-building operations (map, filter, flatMap, take, drop) and
short-circuiting terminal queries (find, some, every) on top of it.

The embedding below models a source over a state type `σ` as a record of
pure state-transition functions (`Src`).  Raised errors are modelled by an
explicit error channel `E` in the pull result; a pull result is therefore an
element, exhaustion, a raised error, or fuel exhaustion (`hang`) of loops
that the source program allows to diverge.  The close operations conceptually
always report `{done: true}`; their `Option E` component is `some e` exactly
when the close itself raises `e` (the optional value argument of the source
program's `return(value?)` is forwarded opaquely and never inspected, so it
is not modelled).

The adapter implementation itself is not part of the given source tree
(only its test-suite is), so its operations are modelled from the
specification, as stated in their doc comments.  The fibonacci test source is
embedded directly from the test-suite code.
-/

namespace Arm5

variable {σ ρ γ E T U : Type}

/-- Result of a single pull on an iteration source: a raised error, the
exhaustion signal `{done: true}`, an element `{done: false, value: v}`, or
fuel exhaustion of the embedding (modelling an internal loop that the source
program allows to run unboundedly). -/
inductive Pull (E T : Type) : Type where
  | err : E → Pull E T
  | done : Pull E T
  | val : T → Pull E T
  | hang : Pull E T
  deriving DecidableEq

/-- An iteration source over mutable state `σ`, element type `T` and error
channel `E`: a pull operation and the two close operations.  A close returns
`none` when it completes normally (reporting `{done: true}`) and `some e`
when the close operation itself raises `e`. -/
structure Src (σ E T : Type) : Type where
  next : σ → Pull E T × σ
  closeN : σ → Option E × σ
  closeE : σ → Option E × σ

/-- State of the fibonacci test source of test.ability.leveled.mjs: the
fields first, second and limit of the object literal. -/
structure FibSt : Type where
  first : Int
  second : Int
  limit : Int
  deriving DecidableEq

/-- Pull operation of the fibonacci test source, from the code: if
`second <= limit` it yields `second` and updates
`[first, second] = [second, first + second]`, otherwise it reports
`{done: true}` leaving the state untouched. -/
def fibNext (E : Type) (s : FibSt) : Pull E Int × FibSt :=
  if s.second ≤ s.limit then
    (Pull.val s.second, ⟨s.second, s.first + s.second, s.limit⟩)
  else
    (Pull.done, s)

/-- Close-normally operation of the fibonacci test source, from the code:
it sets `first` to `limit` (the guard `if (this)` of the code is always
true for an object receiver) and returns `{done: true}`. -/
def fibReturn (E : Type) (s : FibSt) : Option E × FibSt :=
  (none, ⟨s.limit, s.second, s.limit⟩)

/-- Close-with-error operation of the fibonacci test source, from the code:
identical in body to its close-normally operation. -/
def fibThrow (E : Type) (s : FibSt) : Option E × FibSt :=
  (none, ⟨s.limit, s.second, s.limit⟩)

/-- The fibonacci test source packaged as an iteration source. -/
def fibonacci (E : Type) : Src FibSt E Int :=
  ⟨fibNext E, fibReturn E, fibThrow E⟩

/-- Initial state of `fibonacci(limit)`: first 0, second 1. -/
def fibInit (limit : Int) : FibSt :=
  ⟨0, 1, limit⟩

/-- Simple leaf source over a list: pulls the elements of the list in order
and reports done once the list is empty; its close operations are no-ops
that report `{done: true}`, matching an array cursor of the test-suite. -/
def listSrc (E T : Type) : Src (List T) E T :=
  ⟨fun l =>
    match l with
    | [] => (Pull.done, [])
    | x :: xs => (Pull.val x, xs),
   fun l => (none, l),
   fun l => (none, l)⟩

/-- Infinite counting source: state n yields n and moves to n + 1, never
reporting done; close operations are no-ops. -/
def countSrc (E : Type) : Src Nat E Nat :=
  ⟨fun n => (Pull.val n, n + 1), fun n => (none, n), fun n => (none, n)⟩

/-- Instrumentation wrapper counting every pull made on the wrapped source:
the second state component increments once per next() call. -/
def pullCounted (ops : Src σ E T) : Src (σ × Nat) E T :=
  ⟨fun s =>
    let r := ops.next s.1
    (r.1, (r.2, s.2 + 1)),
   fun s =>
    let r := ops.closeN s.1
    (r.1, (r.2, s.2)),
   fun s =>
    let r := ops.closeE s.1
    (r.1, (r.2, s.2))⟩

/-- Instrumentation wrapper counting the elements obtained from the wrapped
source: the second state component increments once per pull that yields a
value, and stays fixed on done, error or hang results. -/
def valCounted (ops : Src σ E T) : Src (σ × Nat) E T :=
  ⟨fun s =>
    match ops.next s.1 with
    | (Pull.val v, s2) => (Pull.val v, (s2, s.2 + 1))
    | (r, s2) => (r, (s2, s.2)),
   fun s =>
    let r := ops.closeN s.1
    (r.1, (r.2, s.2)),
   fun s =>
    let r := ops.closeE s.1
    (r.1, (r.2, s.2))⟩

/-- Instrumentation wrapper counting every close invocation on the wrapped
source: the second state component increments once per closeNormally or
closeWithError call. -/
def closeCounted (ops : Src σ E T) : Src (σ × Nat) E T :=
  ⟨fun s =>
    let r := ops.next s.1
    (r.1, (r.2, s.2)),
   fun s =>
    let r := ops.closeN s.1
    (r.1, (r.2, s.2 + 1)),
   fun s =>
    let r := ops.closeE s.1
    (r.1, (r.2, s.2 + 1))⟩

/-- Wrapper turning a source into one whose close operations themselves
raise the error e, used to model resource-holding sources whose cleanup
fails. -/
def failClose (ops : Src σ E T) (e : E) : Src σ E T :=
  ⟨ops.next, fun s => (some e, s), fun s => (some e, s)⟩

/-- Modelled from the spec: per-adapter state record of the lazy sequence
adapter (IteratorHelper of src/arm5tools/utils.mjs, absent from the given
tree).  Each chain stage owns exactly one parent source state, an
op-specific mutable field `aux` (running index, drop counter,
nested-source-in-progress, remaining count or loop fuel), a `closed` flag
set once close has been delegated, and a `dead` flag set when a pull raised,
after which every pull reports done. -/
structure AdSt (σ α : Type) : Type where
  parent : σ
  aux : α
  closed : Bool
  dead : Bool
  deriving DecidableEq

/-- Fresh adapter state over parent state p with op-specific field a:
neither closed nor exhausted-by-error. -/
def mkAd (p : σ) (a : α) : AdSt σ α :=
  ⟨p, a, false, false⟩

/-- Modelled from the spec: the shared close delegation of every adapter
stage.  On a not-yet-closed adapter it invokes the parent close operation
exactly once, marks the stage closed (hence exhausted), and reports
completion; a raise of the parent close is swallowed, never re-raised.  On
an already-closed adapter it is a no-op reporting completion. -/
def closeAd (pclose : σ → Option E × σ) (s : AdSt σ α) : Option E × AdSt σ α :=
  if s.closed then (none, s)
  else (none, ⟨(pclose s.parent).2, s.aux, true, s.dead⟩)

/-- Dead-flag update after a pull: a raised error latches the adapter
exhausted, any other result leaves the flag as it was. -/
def deadOf (r : Pull E T) (d : Bool) : Bool :=
  match r with
  | Pull.err _ => true
  | _ => d

/-- Modelled from the spec: pull of the plain wrapping adapter (wrap),
delegating one pull to the parent and forwarding its result; a raised error
latches the adapter exhausted. -/
def wrapNext (ops : Src σ E T) (s : AdSt σ Unit) : Pull E T × AdSt σ Unit :=
  if s.closed || s.dead then (Pull.done, s)
  else
    let r := ops.next s.parent
    (r.1, ⟨r.2, s.aux, s.closed, deadOf r.1 s.dead⟩)

/-- Modelled from the spec: the wrapping adapter as an iteration source. -/
def Src.wrap (ops : Src σ E T) : Src (AdSt σ Unit) E T :=
  ⟨wrapNext ops, closeAd ops.closeN, closeAd ops.closeE⟩

/-- Initial state of wrap(source). -/
def wrapInit (p : σ) : AdSt σ Unit :=
  mkAd p ()

/-- Modelled from the spec: the already-exhausted empty source that wrap()
with no argument wraps. -/
def emptySrc (E T : Type) : Src Unit E T :=
  ⟨fun s => (Pull.done, s), fun s => (none, s), fun s => (none, s)⟩

/-- Modelled from the spec: pull of the map stage.  It pulls one element
from the parent; if not done it applies fn(value, runningIndex) and yields
the image; the running index (the aux field) starts at 0 and increments once
per successfully yielded element; done is propagated as-is; a raise of the
mapper propagates and latches the adapter exhausted. -/
def mapNext (ops : Src σ E T) (fn : T → Nat → Except E U) (s : AdSt σ Nat) :
    Pull E U × AdSt σ Nat :=
  if s.closed || s.dead then (Pull.done, s)
  else
    match ops.next s.parent with
    | (Pull.done, p) => (Pull.done, ⟨p, s.aux, s.closed, s.dead⟩)
    | (Pull.hang, p) => (Pull.hang, ⟨p, s.aux, s.closed, s.dead⟩)
    | (Pull.err e, p) => (Pull.err e, ⟨p, s.aux, s.closed, true⟩)
    | (Pull.val v, p) =>
      match fn v s.aux with
      | Except.error e => (Pull.err e, ⟨p, s.aux, s.closed, true⟩)
      | Except.ok u => (Pull.val u, ⟨p, s.aux + 1, s.closed, s.dead⟩)

/-- Modelled from the spec: the map stage as an iteration source. -/
def Src.map (ops : Src σ E T) (fn : T → Nat → Except E U) :
    Src (AdSt σ Nat) E U :=
  ⟨mapNext ops fn, closeAd ops.closeN, closeAd ops.closeE⟩

/-- Initial state of map(fn) over parent state p: running index 0. -/
def mapInit (p : σ) : AdSt σ Nat :=
  mkAd p 0

/-- Modelled from the spec: the discarding loop of the filter stage.  It
pulls repeatedly from the parent, discarding elements where the predicate is
false, until an element passes, the parent exhausts, errs or hangs, or the
predicate raises; the fuel argument bounds the number of parent pulls of one
loop run, returning hang when exceeded (the source program lets this loop
run forever on an infinite never-matching parent). -/
def filterGo (ops : Src σ E T) (pred : T → Except E Bool) :
    Nat → σ → Pull E T × σ
  | 0, p => (Pull.hang, p)
  | Nat.succ fuel, p =>
    match ops.next p with
    | (Pull.done, p2) => (Pull.done, p2)
    | (Pull.hang, p2) => (Pull.hang, p2)
    | (Pull.err e, p2) => (Pull.err e, p2)
    | (Pull.val v, p2) =>
      match pred v with
      | Except.error e => (Pull.err e, p2)
      | Except.ok true => (Pull.val v, p2)
      | Except.ok false => filterGo ops pred fuel p2

/-- Modelled from the spec: pull of the filter stage; the aux field is the
per-call fuel of the discarding loop.  A raised error (of the predicate or
the parent) latches the adapter exhausted. -/
def filterNext (ops : Src σ E T) (pred : T → Except E Bool)
    (s : AdSt σ Nat) : Pull E T × AdSt σ Nat :=
  if s.closed || s.dead then (Pull.done, s)
  else
    let r := filterGo ops pred s.aux s.parent
    (r.1, ⟨r.2, s.aux, s.closed, deadOf r.1 s.dead⟩)

/-- Modelled from the spec: the filter stage as an iteration source. -/
def Src.filter (ops : Src σ E T) (pred : T → Except E Bool) :
    Src (AdSt σ Nat) E T :=
  ⟨filterNext ops pred, closeAd ops.closeN, closeAd ops.closeE⟩

/-- Initial state of filter(pred) over parent state p, with per-call loop
fuel. -/
def filterInit (fuel : Nat) (p : σ) : AdSt σ Nat :=
  mkAd p fuel

/-- Modelled from the spec: pull of the take stage; the aux field is the
count of elements still to be yielded.  With a zero count it reports done
without touching the parent; otherwise it pulls one element, decrementing
the count on a value; a parent done zeroes the count so done is permanent;
a raised error latches the adapter exhausted. -/
def takeNext (ops : Src σ E T) (s : AdSt σ Nat) : Pull E T × AdSt σ Nat :=
  if s.closed || s.dead then (Pull.done, s)
  else
    match s.aux with
    | 0 => (Pull.done, s)
    | Nat.succ k =>
      match ops.next s.parent with
      | (Pull.done, p) => (Pull.done, ⟨p, 0, s.closed, s.dead⟩)
      | (Pull.hang, p) => (Pull.hang, ⟨p, Nat.succ k, s.closed, s.dead⟩)
      | (Pull.err e, p) => (Pull.err e, ⟨p, Nat.succ k, s.closed, true⟩)
      | (Pull.val v, p) => (Pull.val v, ⟨p, k, s.closed, s.dead⟩)

/-- Modelled from the spec: the take stage as an iteration source. -/
def Src.take (ops : Src σ E T) : Src (AdSt σ Nat) E T :=
  ⟨takeNext ops, closeAd ops.closeN, closeAd ops.closeE⟩

/-- Initial state of take(n) over parent state p. -/
def takeInit (n : Nat) (p : σ) : AdSt σ Nat :=
  mkAd p n

/-- Modelled from the spec: the skipping loop of the drop stage.  While the
drop counter is positive it pulls and ignores parent elements; once the
counter reaches zero it forwards one parent pull untouched.  The fuel
argument bounds the ignored pulls of one loop run. -/
def dropGo (ops : Src σ E T) : Nat → Nat → σ → Pull E T × (σ × Nat)
  | _, 0, p =>
    let r := ops.next p
    (r.1, (r.2, 0))
  | 0, Nat.succ k, p => (Pull.hang, (p, Nat.succ k))
  | Nat.succ fuel, Nat.succ k, p =>
    match ops.next p with
    | (Pull.done, p2) => (Pull.done, (p2, Nat.succ k))
    | (Pull.hang, p2) => (Pull.hang, (p2, Nat.succ k))
    | (Pull.err e, p2) => (Pull.err e, (p2, Nat.succ k))
    | (Pull.val _, p2) => dropGo ops fuel k p2

/-- Modelled from the spec: pull of the drop stage; the aux field pairs the
remaining drop counter with the per-call loop fuel.  A raised error latches
the adapter exhausted. -/
def dropNext (ops : Src σ E T) (s : AdSt σ (Nat × Nat)) :
    Pull E T × AdSt σ (Nat × Nat) :=
  if s.closed || s.dead then (Pull.done, s)
  else
    let r := dropGo ops s.aux.2 s.aux.1 s.parent
    (r.1, ⟨r.2.1, (r.2.2, s.aux.2), s.closed, deadOf r.1 s.dead⟩)

/-- Modelled from the spec: the drop stage as an iteration source. -/
def Src.drop (ops : Src σ E T) : Src (AdSt σ (Nat × Nat)) E T :=
  ⟨dropNext ops, closeAd ops.closeN, closeAd ops.closeE⟩

/-- Initial state of drop(n) over parent state p, with per-call loop fuel. -/
def dropInit (n fuel : Nat) (p : σ) : AdSt σ (Nat × Nat) :=
  mkAd p (n, fuel)

/-- Modelled from the spec: the loop of the flatMap stage.  While a nested
source is in progress it exhausts it element by element; on its done it
moves on, pulling the next parent element and feeding it to the generator
fn, whose produced nested source becomes current.  Order is strictly all of
nested(e1), then all of nested(e2), and so on.  A raise of the generator
propagates.  The fuel argument bounds the loop steps of one call. -/
def flatGo (ops : Src σ E T) (nops : Src ρ E U) (fn : T → Except E ρ) :
    Nat → σ → Option ρ → Pull E U × (σ × Option ρ)
  | 0, p, cur => (Pull.hang, (p, cur))
  | Nat.succ fuel, p, some r =>
    match nops.next r with
    | (Pull.val u, r2) => (Pull.val u, (p, some r2))
    | (Pull.hang, r2) => (Pull.hang, (p, some r2))
    | (Pull.err e, r2) => (Pull.err e, (p, some r2))
    | (Pull.done, _) => flatGo ops nops fn fuel p none
  | Nat.succ fuel, p, none =>
    match ops.next p with
    | (Pull.done, p2) => (Pull.done, (p2, none))
    | (Pull.hang, p2) => (Pull.hang, (p2, none))
    | (Pull.err e, p2) => (Pull.err e, (p2, none))
    | (Pull.val t, p2) =>
      match fn t with
      | Except.error e => (Pull.err e, (p2, none))
      | Except.ok r => flatGo ops nops fn fuel p2 (some r)

/-- Modelled from the spec: pull of the flatMap stage; the aux field pairs
the nested-source-in-progress with the per-call loop fuel.  A raised error
latches the adapter exhausted. -/
def flatNext (ops : Src σ E T) (nops : Src ρ E U) (fn : T → Except E ρ)
    (s : AdSt σ (Option ρ × Nat)) : Pull E U × AdSt σ (Option ρ × Nat) :=
  if s.closed || s.dead then (Pull.done, s)
  else
    let r := flatGo ops nops fn s.aux.2 s.parent s.aux.1
    (r.1, ⟨r.2.1, (r.2.2, s.aux.2), s.closed, deadOf r.1 s.dead⟩)

/-- Modelled from the spec: the flatMap stage as an iteration source; the
generator returns the initial state of a nested source driven by nops. -/
def Src.flatMap (ops : Src σ E T) (nops : Src ρ E U)
    (fn : T → Except E ρ) : Src (AdSt σ (Option ρ × Nat)) E U :=
  ⟨flatNext ops nops fn, closeAd ops.closeN, closeAd ops.closeE⟩

/-- Initial state of flatMap(fn) over parent state p: no nested source in
progress, with per-call loop fuel. -/
def flatInit (fuel : Nat) (p : σ) : AdSt σ (Option ρ × Nat) :=
  mkAd p (none, fuel)

/-- Result of a terminal query: an answer, a propagated raise, or fuel
exhaustion of the embedding. -/
inductive QR (E A : Type) : Type where
  | hang : QR E A
  | err : E → QR E A
  | res : A → QR E A
  deriving DecidableEq

/-- Latch an adapter state exhausted, as a raising pull leaves it. -/
def kill (s : AdSt σ α) : AdSt σ α :=
  ⟨s.parent, s.aux, s.closed, true⟩

/-- Modelled from the spec: the terminal query some(pred).  It pulls
elements in order and returns true on the first match, short-circuiting;
false if exhausted without a match; a raise of the predicate propagates and
leaves the adapter exhausted.  The fuel argument bounds the pulls of one
query. -/
def Src.some (ops : Src (AdSt σ α) E T) (pred : T → Except E Bool) :
    Nat → AdSt σ α → QR E Bool × AdSt σ α
  | 0, s => (QR.hang, s)
  | Nat.succ fuel, s =>
    match ops.next s with
    | (Pull.done, s2) => (QR.res false, s2)
    | (Pull.hang, s2) => (QR.hang, s2)
    | (Pull.err e, s2) => (QR.err e, s2)
    | (Pull.val v, s2) =>
      match pred v with
      | Except.error e => (QR.err e, kill s2)
      | Except.ok true => (QR.res true, s2)
      | Except.ok false => Src.some ops pred fuel s2

/-- Modelled from the spec: the terminal query every(pred).  It returns
false on the first non-match, short-circuiting; true if exhausted with no
counterexample, vacuously true for an empty sequence; a raise of the
predicate propagates and leaves the adapter exhausted. -/
def Src.every (ops : Src (AdSt σ α) E T) (pred : T → Except E Bool) :
    Nat → AdSt σ α → QR E Bool × AdSt σ α
  | 0, s => (QR.hang, s)
  | Nat.succ fuel, s =>
    match ops.next s with
    | (Pull.done, s2) => (QR.res true, s2)
    | (Pull.hang, s2) => (QR.hang, s2)
    | (Pull.err e, s2) => (QR.err e, s2)
    | (Pull.val v, s2) =>
      match pred v with
      | Except.error e => (QR.err e, kill s2)
      | Except.ok false => (QR.res false, s2)
      | Except.ok true => Src.every ops pred fuel s2

/-- Modelled from the spec: the terminal query find(pred).  It pulls
elements in order, returns the first one satisfying pred and stops pulling
immediately on a match; returns the undefined answer (none) if exhausted
without a match; a raise of the predicate propagates and leaves the adapter
exhausted. -/
def Src.find (ops : Src (AdSt σ α) E T) (pred : T → Except E Bool) :
    Nat → AdSt σ α → QR E (Option T) × AdSt σ α
  | 0, s => (QR.hang, s)
  | Nat.succ fuel, s =>
    match ops.next s with
    | (Pull.done, s2) => (QR.res none, s2)
    | (Pull.hang, s2) => (QR.hang, s2)
    | (Pull.err e, s2) => (QR.err e, s2)
    | (Pull.val v, s2) =>
      match pred v with
      | Except.error e => (QR.err e, kill s2)
      | Except.ok true => (QR.res (Option.some v), s2)
      | Except.ok false => Src.find ops pred fuel s2

/-- State of a source after k further pulls. -/
def nexts (ops : Src σ E T) : Nat → σ → σ
  | 0, s => s
  | Nat.succ k, s => nexts ops k (ops.next s).2

/-- Elements collected by pulling k times, stopping early at the first
non-value result. -/
def collectN (ops : Src σ E T) : Nat → σ → List T × σ
  | 0, s => ([], s)
  | Nat.succ k, s =>
    match ops.next s with
    | (Pull.val v, s2) =>
      let r := collectN ops k s2
      (v :: r.1, r.2)
    | (_, s2) => ([], s2)

/-- Run a sequence of close calls: true selects closeNormally, false
selects closeWithError; returns the list of results and the final state. -/
def runCloses (cN cE : γ → Option E × γ) : List Bool → γ → List (Option E) × γ
  | [], s => ([], s)
  | b :: bs, s =>
    let r := if b then cN s else cE s
    let rest := runCloses cN cE bs r.2
    (r.1 :: rest.1, rest.2)

/-- A source state whose next pull reports done. -/
def Done (ops : Src σ E T) (s : σ) : Prop :=
  (ops.next s).1 = Pull.done

/-- A source on which exhaustion is one-step permanent: whenever a pull
reports done, the pull after it reports done as well. -/
def Perm (ops : Src σ E T) : Prop :=
  ∀ s, Done ops s → Done ops (ops.next s).2

/-- A source state from which every future pull reports done. -/
def AllDone (ops : Src σ E T) (s : σ) : Prop :=
  ∀ k, Done ops (nexts ops k s)

/-- Expected answer of one filter pull over a list parent, for a predicate
that may raise: the first element on which the predicate raises yields that
error (after any number of discarded elements), the first passing element
is yielded, and exhaustion yields done. -/
def filterListRes (pr : T → Except E Bool) : List T → Pull E T
  | [] => Pull.done
  | x :: xs =>
    match pr x with
    | Except.error e => Pull.err e
    | Except.ok true => Pull.val x
    | Except.ok false => filterListRes pr xs

/-- Expected answer of some(pred) over a list parent, for a predicate that
may raise: the first raise (after any number of non-matching elements)
surfaces as that error, the first match answers true, exhaustion answers
false. -/
def someListRes (pr : T → Except E Bool) : List T → QR E Bool
  | [] => QR.res false
  | x :: xs =>
    match pr x with
    | Except.error e => QR.err e
    | Except.ok true => QR.res true
    | Except.ok false => someListRes pr xs

/-- Expected answer of every(pred) over a list parent, for a predicate that
may raise: the first raise (after any number of matching elements) surfaces
as that error, the first non-match answers false, exhaustion answers
true. -/
def everyListRes (pr : T → Except E Bool) : List T → QR E Bool
  | [] => QR.res true
  | x :: xs =>
    match pr x with
    | Except.error e => QR.err e
    | Except.ok false => QR.res false
    | Except.ok true => everyListRes pr xs

/-- Expected answer of find(pred) over a list parent, for a predicate that
may raise: the first raise (after any number of non-matching elements)
surfaces as that error, the first match is returned, exhaustion returns the
undefined answer. -/
def findListRes (pr : T → Except E Bool) : List T → QR E (Option T)
  | [] => QR.res none
  | x :: xs =>
    match pr x with
    | Except.error e => QR.err e
    | Except.ok true => QR.res (Option.some x)
    | Except.ok false => findListRes pr xs

/-- C10: for every state of a source built by fibonacci(limit), return() and
throw() set the field first to limit, leave second unchanged and report
`{done: true}` without raising; hence whenever `second <= limit` holds, a
next() call made after return() or throw() still yields
`{done: false, value: second}` rather than done. -/
theorem C10_fib_close_not_exhausting (E : Type) (s : FibSt) :
    (fibonacci E).closeN s = (none, ⟨s.limit, s.second, s.limit⟩) ∧
    (fibonacci E).closeE s = (none, ⟨s.limit, s.second, s.limit⟩) ∧
    (s.second ≤ s.limit →
      ((fibonacci E).next ((fibonacci E).closeN s).2).1 = Pull.val s.second ∧
      ((fibonacci E).next ((fibonacci E).closeE s).2).1 = Pull.val s.second) := by
  refine ⟨rfl, rfl, fun h => ⟨?_, ?_⟩⟩ <;>
    simp [fibonacci, fibNext, fibReturn, fibThrow, h]

/-- Witness for C10 at the concrete source fibonacci(5) freshly constructed:
second = 1 ≤ 5, so after a close the next pull still yields the value 1. -/
theorem C10_fib_close_not_exhausting_witness :
    ((fibonacci Unit).next ((fibonacci Unit).closeN (fibInit 5)).2).1 =
      Pull.val 1 ∧
    ((fibonacci Unit).next ((fibonacci Unit).closeE (fibInit 5)).2).1 =
      Pull.val 1 :=
  (C10_fib_close_not_exhausting Unit (fibInit 5)).2.2 (by decide)

theorem nexts_succ (ops : Src σ E T) (k : Nat) (s : σ) :
    nexts ops (k + 1) s = nexts ops k (ops.next s).2 :=
  rfl

/-- A state fixed by its own done-reporting pull reports done forever. -/
theorem done_fixpoint (ops : Src σ E T) (s : σ)
    (h : ops.next s = (Pull.done, s)) : AllDone ops s := by
  intro k
  induction k with
  | zero => simp [Done, nexts, h]
  | succ k ih => simpa [nexts_succ, h] using ih

/-- On a one-step-permanent source, a done-reporting state reports done on
every future pull. -/
theorem perm_allDone (ops : Src σ E T) (hp : Perm ops) :
    ∀ s, Done ops s → AllDone ops s := by
  intro s hs k
  induction k generalizing s with
  | zero => simpa [nexts] using hs
  | succ k ih =>
    rw [nexts_succ]
    exact ih _ (hp s hs)

/-- The fibonacci test source is one-step permanent: its done branch leaves
the state untouched. -/
theorem perm_fib (E : Type) : Perm (fibonacci E) := by
  intro s hs
  simp only [Done, fibonacci, fibNext] at hs ⊢
  by_cases h : s.second ≤ s.limit
  · simp [h] at hs
  · simp [h]

/-- The list source is one-step permanent. -/
theorem perm_list (E T : Type) : Perm (listSrc E T) := by
  intro s hs
  simp only [Done, listSrc] at hs ⊢
  cases s with
  | nil => simp
  | cons x xs => simp at hs

/-- A closed or error-latched wrap state pulls to done without moving. -/
theorem wrapNext_flag (ops : Src σ E T) (s : AdSt σ Unit)
    (h : (s.closed || s.dead) = true) : wrapNext ops s = (Pull.done, s) := by
  unfold wrapNext
  rw [if_pos h]

/-- Modelled-adapter permanence: wrap over a one-step-permanent parent is
one-step permanent. -/
theorem perm_wrap (ops : Src σ E T) (hp : Perm ops) :
    Perm (Src.wrap ops) := by
  intro s hs
  obtain ⟨p, a, c, d⟩ := s
  simp only [Done, Src.wrap] at hs ⊢
  cases c with
  | true => simp [wrapNext]
  | false =>
    cases d with
    | true => simp [wrapNext]
    | false =>
      rcases hpar : ops.next p with ⟨r, p2⟩
      simp only [wrapNext, Bool.or_self, if_neg, hpar] at hs
      cases r with
      | done =>
        have hd2 : (ops.next p2).1 = Pull.done := by
          have h0 : Done ops p := by simp [Done, hpar]
          have h1 := hp p h0
          rw [hpar] at h1
          exact h1
        rcases hpar2 : ops.next p2 with ⟨r2, p3⟩
        rw [hpar2] at hd2
        simp at hd2
        subst hd2
        simp [wrapNext, hpar, hpar2, deadOf]
      | val v => simp at hs
      | err e => simp at hs
      | hang => simp at hs

/-- Modelled-adapter permanence: map over a one-step-permanent parent is
one-step permanent. -/
theorem perm_map (ops : Src σ E T) (fn : T → Nat → Except E U)
    (hp : Perm ops) : Perm (Src.map ops fn) := by
  intro s hs
  obtain ⟨p, a, c, d⟩ := s
  simp only [Done, Src.map] at hs ⊢
  cases c with
  | true => simp [mapNext]
  | false =>
    cases d with
    | true => simp [mapNext]
    | false =>
      rcases hpar : ops.next p with ⟨r, p2⟩
      cases r with
      | done =>
        have hd2 : (ops.next p2).1 = Pull.done := by
          have h0 : Done ops p := by simp [Done, hpar]
          have h1 := hp p h0
          rw [hpar] at h1
          exact h1
        rcases hpar2 : ops.next p2 with ⟨r2, p3⟩
        rw [hpar2] at hd2
        simp at hd2
        subst hd2
        simp [mapNext, hpar, hpar2]
      | val v =>
        rcases hfn : fn v a with e | u <;> simp [mapNext, hpar, hfn] at hs
      | err e => simp [mapNext, hpar] at hs
      | hang => simp [mapNext, hpar] at hs

/-- A done result of the filter loop leaves the parent in a state that
pulls to done (over a one-step-permanent parent) and can only arise with
positive fuel. -/
theorem filterGo_done (ops : Src σ E T) (pred : T → Except E Bool)
    (hp : Perm ops) :
    ∀ fuel p, (filterGo ops pred fuel p).1 = Pull.done →
      Done ops (filterGo ops pred fuel p).2 ∧ 1 ≤ fuel := by
  intro fuel
  induction fuel with
  | zero =>
    intro p h
    simp [filterGo] at h
  | succ fuel ih =>
    intro p h
    rcases hpar : ops.next p with ⟨r, p2⟩
    cases r with
    | done =>
      refine ⟨?_, by omega⟩
      have h0 : Done ops p := by simp [Done, hpar]
      have h1 := hp p h0
      rw [hpar] at h1
      simpa [filterGo, hpar] using h1
    | val v =>
      rcases hfn : pred v with e | b
      · simp [filterGo, hpar, hfn] at h
      · cases b with
        | true => simp [filterGo, hpar, hfn] at h
        | false =>
          have h2 : (filterGo ops pred fuel p2).1 = Pull.done := by
            simpa [filterGo, hpar, hfn] using h
          refine ⟨?_, by omega⟩
          simpa [filterGo, hpar, hfn] using (ih p2 h2).1
    | err e => simp [filterGo, hpar] at h
    | hang => simp [filterGo, hpar] at h

/-- Modelled-adapter permanence: filter over a one-step-permanent parent is
one-step permanent. -/
theorem perm_filter (ops : Src σ E T) (pred : T → Except E Bool)
    (hp : Perm ops) : Perm (Src.filter ops pred) := by
  intro s hs
  obtain ⟨p, a, c, d⟩ := s
  simp only [Done, Src.filter] at hs ⊢
  cases c with
  | true => simp [filterNext]
  | false =>
    cases d with
    | true => simp [filterNext]
    | false =>
      have hr : (filterGo ops pred a p).1 = Pull.done := by
        simpa [filterNext] using hs
      obtain ⟨hdone, hfuel⟩ := filterGo_done ops pred hp a p hr
      rcases hg : filterGo ops pred a p with ⟨rg, pg⟩
      rw [hg] at hr hdone
      simp at hr
      subst hr
      rcases a with _ | a2
      · omega
      · rcases hpar2 : ops.next pg with ⟨r2, p3⟩
        simp only [Done, hpar2] at hdone
        subst hdone
        have hstep : filterGo ops pred (a2 + 1) pg = (Pull.done, p3) := by
          simp [filterGo, hpar2]
        simp [filterNext, hg, hstep, deadOf]

/-- Modelled-adapter permanence: take is one-step permanent over any
parent, its remaining count being zeroed when done is first reported. -/
theorem perm_take (ops : Src σ E T) : Perm (Src.take ops) := by
  intro s hs
  obtain ⟨p, a, c, d⟩ := s
  simp only [Done, Src.take] at hs ⊢
  cases c with
  | true => simp [takeNext]
  | false =>
    cases d with
    | true => simp [takeNext]
    | false =>
      rcases a with _ | k
      · simp [takeNext]
      · rcases hpar : ops.next p with ⟨r, p2⟩
        cases r with
        | done => simp [takeNext, hpar]
        | val v => simp [takeNext, hpar] at hs
        | err e => simp [takeNext, hpar] at hs
        | hang => simp [takeNext, hpar] at hs

/-- A done result of the drop loop leaves the parent in a state that pulls
to done (over a one-step-permanent parent); its returned drop counter is
zero or the fuel was positive. -/
theorem dropGo_done (ops : Src σ E T) (hp : Perm ops) :
    ∀ fuel td p, (dropGo ops fuel td p).1 = Pull.done →
      Done ops (dropGo ops fuel td p).2.1 ∧
        ((dropGo ops fuel td p).2.2 = 0 ∨ 1 ≤ fuel) := by
  intro fuel
  induction fuel with
  | zero =>
    intro td p h
    rcases td with _ | k
    · rcases hpar : ops.next p with ⟨r, p2⟩
      cases r with
      | done =>
        refine ⟨?_, Or.inl (by simp [dropGo, hpar])⟩
        have h0 : Done ops p := by simp [Done, hpar]
        have h1 := hp p h0
        rw [hpar] at h1
        simpa [dropGo, hpar] using h1
      | val v => simp [dropGo, hpar] at h
      | err e => simp [dropGo, hpar] at h
      | hang => simp [dropGo, hpar] at h
    · simp [dropGo] at h
  | succ fuel ih =>
    intro td p h
    rcases td with _ | k
    · rcases hpar : ops.next p with ⟨r, p2⟩
      cases r with
      | done =>
        refine ⟨?_, Or.inl (by simp [dropGo, hpar])⟩
        have h0 : Done ops p := by simp [Done, hpar]
        have h1 := hp p h0
        rw [hpar] at h1
        simpa [dropGo, hpar] using h1
      | val v => simp [dropGo, hpar] at h
      | err e => simp [dropGo, hpar] at h
      | hang => simp [dropGo, hpar] at h
    · rcases hpar : ops.next p with ⟨r, p2⟩
      cases r with
      | done =>
        refine ⟨?_, Or.inr (by omega)⟩
        have h0 : Done ops p := by simp [Done, hpar]
        have h1 := hp p h0
        rw [hpar] at h1
        simpa [dropGo, hpar] using h1
      | val v =>
        have h2 : (dropGo ops fuel k p2).1 = Pull.done := by
          simpa [dropGo, hpar] using h
        refine ⟨?_, Or.inr (by omega)⟩
        simpa [dropGo, hpar] using (ih k p2 h2).1
      | err e => simp [dropGo, hpar] at h
      | hang => simp [dropGo, hpar] at h

/-- Modelled-adapter permanence: drop over a one-step-permanent parent is
one-step permanent. -/
theorem perm_drop (ops : Src σ E T) (hp : Perm ops) :
    Perm (Src.drop ops) := by
  intro s hs
  obtain ⟨p, a, c, d⟩ := s
  obtain ⟨td, F⟩ := a
  simp only [Done, Src.drop] at hs ⊢
  cases c with
  | true => simp [dropNext]
  | false =>
    cases d with
    | true => simp [dropNext]
    | false =>
      have hr : (dropGo ops F td p).1 = Pull.done := by
        simpa [dropNext] using hs
      obtain ⟨hdone, hdisj⟩ := dropGo_done ops hp F td p hr
      rcases hg : dropGo ops F td p with ⟨rg, pg2⟩
      obtain ⟨pg, td2⟩ := pg2
      rw [hg] at hr hdone hdisj
      simp at hr
      subst hr
      simp only at hdone hdisj
      rcases hpar2 : ops.next pg with ⟨r2, p3⟩
      simp only [Done, hpar2] at hdone
      subst hdone
      rcases hdisj with h0 | hF
      · subst h0
        simp [dropNext, hg, dropGo, hpar2, deadOf]
      · rcases td2 with _ | k
        · simp [dropNext, hg, dropGo, hpar2, deadOf]
        · rcases F with _ | F2
          · omega
          · simp [dropNext, hg, dropGo, hpar2, deadOf]

/-- A done result of the flatMap loop leaves no nested source in progress
and a parent state that pulls to done (over a one-step-permanent parent),
and can only arise with positive fuel. -/
theorem flatGo_done (ops : Src σ E T) (nops : Src ρ E U)
    (fn : T → Except E ρ) (hp : Perm ops) :
    ∀ fuel p cur, (flatGo ops nops fn fuel p cur).1 = Pull.done →
      Done ops (flatGo ops nops fn fuel p cur).2.1 ∧
        (flatGo ops nops fn fuel p cur).2.2 = none ∧ 1 ≤ fuel := by
  intro fuel
  induction fuel with
  | zero =>
    intro p cur h
    simp [flatGo] at h
  | succ fuel ih =>
    intro p cur h
    rcases cur with _ | r
    · rcases hpar : ops.next p with ⟨rp, p2⟩
      cases rp with
      | done =>
        refine ⟨?_, by simp [flatGo, hpar], by omega⟩
        have h0 : Done ops p := by simp [Done, hpar]
        have h1 := hp p h0
        rw [hpar] at h1
        simpa [flatGo, hpar] using h1
      | val t =>
        rcases hfn : fn t with e | r0
        · simp [flatGo, hpar, hfn] at h
        · have h2 : (flatGo ops nops fn fuel p2 (some r0)).1 = Pull.done := by
            simpa [flatGo, hpar, hfn] using h
          obtain ⟨ha, hb, _⟩ := ih p2 (some r0) h2
          refine ⟨?_, ?_, by omega⟩
          · simpa [flatGo, hpar, hfn] using ha
          · simpa [flatGo, hpar, hfn] using hb
      | err e => simp [flatGo, hpar] at h
      | hang => simp [flatGo, hpar] at h
    · rcases hn : nops.next r with ⟨rn, r2⟩
      cases rn with
      | done =>
        have h2 : (flatGo ops nops fn fuel p none).1 = Pull.done := by
          simpa [flatGo, hn] using h
        obtain ⟨ha, hb, _⟩ := ih p none h2
        refine ⟨?_, ?_, by omega⟩
        · simpa [flatGo, hn] using ha
        · simpa [flatGo, hn] using hb
      | val u => simp [flatGo, hn] at h
      | err e => simp [flatGo, hn] at h
      | hang => simp [flatGo, hn] at h

/-- Modelled-adapter permanence: flatMap over a one-step-permanent parent
is one-step permanent. -/
theorem perm_flatMap (ops : Src σ E T) (nops : Src ρ E U)
    (fn : T → Except E ρ) (hp : Perm ops) :
    Perm (Src.flatMap ops nops fn) := by
  intro s hs
  obtain ⟨p, a, c, d⟩ := s
  obtain ⟨cur, F⟩ := a
  simp only [Done, Src.flatMap] at hs ⊢
  cases c with
  | true => simp [flatNext]
  | false =>
    cases d with
    | true => simp [flatNext]
    | false =>
      have hr : (flatGo ops nops fn F p cur).1 = Pull.done := by
        simpa [flatNext] using hs
      obtain ⟨hdone, hnone, hfuel⟩ := flatGo_done ops nops fn hp F p cur hr
      rcases hg : flatGo ops nops fn F p cur with ⟨rg, pg2⟩
      obtain ⟨pg, cur2⟩ := pg2
      rw [hg] at hr hdone hnone
      simp at hr
      subst hr
      simp only at hdone hnone
      subst hnone
      rcases hpar2 : ops.next pg with ⟨r2, p3⟩
      simp only [Done, hpar2] at hdone
      subst hdone
      rcases F with _ | F2
      · omega
      · simp [flatNext, hg, flatGo, hpar2, deadOf]

/-- C1: exhaustion is permanent.  For the fibonacci iteration source of the
test-suite, and for every adapter stage (wrap, map, filter, take, drop,
flatMap, the adapter modelled from the spec) over a parent source on which
exhaustion is one-step permanent (the protocol invariant assumed of the
caller-supplied source), once a pull reports done, every subsequent pull on
that same instance reports done as well; take needs no assumption on its
parent. -/
theorem C1_exhaustion_permanent (E T U ρ : Type) :
    (∀ s, Done (fibonacci E) s → AllDone (fibonacci E) s) ∧
    (∀ (σ : Type) (ops : Src σ E T), Perm ops →
      ∀ s, Done (Src.wrap ops) s → AllDone (Src.wrap ops) s) ∧
    (∀ (σ : Type) (ops : Src σ E T) (fn : T → Nat → Except E U), Perm ops →
      ∀ s, Done (Src.map ops fn) s → AllDone (Src.map ops fn) s) ∧
    (∀ (σ : Type) (ops : Src σ E T) (pred : T → Except E Bool), Perm ops →
      ∀ s, Done (Src.filter ops pred) s → AllDone (Src.filter ops pred) s) ∧
    (∀ (σ : Type) (ops : Src σ E T),
      ∀ s, Done (Src.take ops) s → AllDone (Src.take ops) s) ∧
    (∀ (σ : Type) (ops : Src σ E T), Perm ops →
      ∀ s, Done (Src.drop ops) s → AllDone (Src.drop ops) s) ∧
    (∀ (σ : Type) (ops : Src σ E T) (nops : Src ρ E U)
      (fn : T → Except E ρ), Perm ops →
      ∀ s, Done (Src.flatMap ops nops fn) s →
        AllDone (Src.flatMap ops nops fn) s) := by
  refine ⟨?_, ?_, ?_, ?_, ?_, ?_, ?_⟩
  · exact fun s hs => perm_allDone _ (perm_fib E) s hs
  · exact fun σ1 ops hp s hs => perm_allDone _ (perm_wrap ops hp) s hs
  · exact fun σ1 ops fn hp s hs => perm_allDone _ (perm_map ops fn hp) s hs
  · exact fun σ1 ops pr hp s hs => perm_allDone _ (perm_filter ops pr hp) s hs
  · exact fun σ1 ops s hs => perm_allDone _ (perm_take ops) s hs
  · exact fun σ1 ops hp s hs => perm_allDone _ (perm_drop ops hp) s hs
  · exact fun σ1 ops nops fn hp s hs =>
      perm_allDone _ (perm_flatMap ops nops fn hp) s hs

/-- Witness for C1: the exhausted fibonacci(0) source still reports done
three pulls later, and a map stage over an exhausted list source still
reports done two pulls after its first done. -/
theorem C1_exhaustion_permanent_witness :
    Done (fibonacci Unit) (nexts (fibonacci Unit) 3 (fibInit 0)) ∧
    Done (Src.map (listSrc Unit Nat) (fun x _ => Except.ok x))
      (nexts (Src.map (listSrc Unit Nat) (fun x _ => Except.ok x)) 2
        (mapInit [])) := by
  constructor
  · exact (C1_exhaustion_permanent Unit Nat Nat Unit).1 (fibInit 0)
      (show ((fibonacci Unit).next (fibInit 0)).1 = Pull.done by decide) 3
  · exact (C1_exhaustion_permanent Unit Nat Nat Unit).2.2.1 (List Nat)
      (listSrc Unit Nat) (fun x _ => Except.ok x) (perm_list Unit Nat)
      (mapInit [])
      (show ((Src.map (listSrc Unit Nat) (fun x _ => Except.ok x)).next
        (mapInit [])).1 = Pull.done by rfl) 2

/-- Closing an already-closed adapter stage any number of times is a no-op
chain: every call reports completion and the state never changes. -/
theorem runCloses_closed {α : Type} (cN cE : σ → Option E × σ)
    (s : AdSt σ α) (h : s.closed = true) :
    ∀ bs, runCloses (closeAd cN) (closeAd cE) bs s =
      (List.replicate bs.length none, s) := by
  intro bs
  induction bs with
  | nil => simp [runCloses]
  | cons b bs ih =>
    have h1 : closeAd cN s = (none, s) := by simp [closeAd, h]
    have h2 : closeAd cE s = (none, s) := by simp [closeAd, h]
    cases b <;> simp [runCloses, h1, h2, ih, List.replicate]

/-- C2: closing is exactly-once and idempotent.  For every adapter stage
over any parent source instrumented to count its close invocations, any
nonempty sequence of return()/throw() calls leaves the parent closed
exactly once and reports completion on every call; and on the concrete
map, then filter, then take chain over a close-counted list source two
return() calls on the outermost stage both report done, with the innermost
source closed exactly once. -/
theorem C2_close_exactly_once (E T : Type) (α : Type) :
    (∀ (σ : Type) (ops : Src σ E T) (p : σ) (c : Nat) (a : α)
        (bs : List Bool), bs ≠ [] →
      (runCloses (closeAd (closeCounted ops).closeN)
          (closeAd (closeCounted ops).closeE) bs
          (mkAd (p, c) a)).2.parent.2 = c + 1 ∧
      (runCloses (closeAd (closeCounted ops).closeN)
          (closeAd (closeCounted ops).closeE) bs
          (mkAd (p, c) a)).1 = List.replicate bs.length none) ∧
    (Src.take (Src.filter
        (Src.map (closeCounted (listSrc Unit Nat))
          (fun x _ => (Except.ok x : Except Unit Nat)))
        (fun _ => Except.ok true))).closeN
      (takeInit 2 (filterInit 4 (mapInit (([1, 2, 3] : List Nat), 0)))) =
        (none, ⟨⟨⟨([1, 2, 3], 1), 0, true, false⟩, 4, true, false⟩,
          2, true, false⟩) ∧
    (Src.take (Src.filter
        (Src.map (closeCounted (listSrc Unit Nat))
          (fun x _ => (Except.ok x : Except Unit Nat)))
        (fun _ => Except.ok true))).closeN
      ⟨⟨⟨([1, 2, 3], 1), 0, true, false⟩, 4, true, false⟩, 2, true, false⟩ =
        (none, ⟨⟨⟨([1, 2, 3], 1), 0, true, false⟩, 4, true, false⟩,
          2, true, false⟩) := by
  refine ⟨?_, by decide, by decide⟩
  intro σ1 ops p c a bs hbs
  rcases bs with _ | ⟨b, bs2⟩
  · exact absurd rfl hbs
  · cases b
    · have hstep : closeAd (closeCounted ops).closeE (mkAd (p, c) a) =
          (none, ⟨((ops.closeE p).2, c + 1), a, true, false⟩) := by
        simp [closeAd, mkAd, closeCounted]
      have hrest := runCloses_closed (closeCounted ops).closeN
        (closeCounted ops).closeE
        (⟨((ops.closeE p).2, c + 1), a, true, false⟩ : AdSt (σ1 × Nat) α)
        rfl bs2
      constructor
      · simp [runCloses, hstep, hrest]
      · simp [runCloses, hstep, hrest, List.replicate]
    · have hstep : closeAd (closeCounted ops).closeN (mkAd (p, c) a) =
          (none, ⟨((ops.closeN p).2, c + 1), a, true, false⟩) := by
        simp [closeAd, mkAd, closeCounted]
      have hrest := runCloses_closed (closeCounted ops).closeN
        (closeCounted ops).closeE
        (⟨((ops.closeN p).2, c + 1), a, true, false⟩ : AdSt (σ1 × Nat) α)
        rfl bs2
      constructor
      · simp [runCloses, hstep, hrest]
      · simp [runCloses, hstep, hrest, List.replicate]

/-- Witness for C2: a double return() on a wrap stage over a close-counted
fibonacci source closes the fibonacci source exactly once, both calls
reporting completion. -/
theorem C2_close_exactly_once_witness :
    (runCloses (closeAd (closeCounted (fibonacci Unit)).closeN)
        (closeAd (closeCounted (fibonacci Unit)).closeE) [true, true]
        (mkAd (fibInit 5, 0) ())).2.parent.2 = 0 + 1 ∧
    (runCloses (closeAd (closeCounted (fibonacci Unit)).closeN)
        (closeAd (closeCounted (fibonacci Unit)).closeE) [true, true]
        (mkAd (fibInit 5, 0) ())).1 = List.replicate 2 none :=
  (C2_close_exactly_once Unit Int Unit).1 FibSt (fibonacci Unit)
    (fibInit 5) 0 () [true, true] (by decide)

/-- C3: chain construction is lazy.  Constructing any chain stage (wrap,
map, filter, take, drop, flatMap) stores the parent state untouched, so no
pull is performed on the source at construction; concretely, on a take of a
filter of a map over a pull-counted counting source the pull counter is
still zero after construction, becomes one when the outermost next() is
first invoked, and a terminal query likewise performs the first pull. -/
theorem C3_construction_lazy (ρ : Type) :
    (∀ (σ : Type) (p : σ) (n fuel : Nat),
      (wrapInit p).parent = p ∧ (mapInit p).parent = p ∧
      (filterInit fuel p).parent = p ∧ (takeInit n p).parent = p ∧
      (dropInit n fuel p).parent = p ∧
      (flatInit fuel p : AdSt σ (Option ρ × Nat)).parent = p) ∧
    (takeInit 3 (filterInit 4 (mapInit (((0 : Nat), 0) :
        Nat × Nat)))).parent.parent.parent.2 = 0 ∧
    (Src.take (Src.filter
        (Src.map (pullCounted (countSrc Unit))
          (fun x _ => (Except.ok x : Except Unit Nat)))
        (fun _ => Except.ok true))).next
      (takeInit 3 (filterInit 4 (mapInit ((0, 0) : Nat × Nat)))) =
      (Pull.val 0, ⟨⟨⟨(1, 1), 1, false, false⟩, 4, false, false⟩,
        2, false, false⟩) ∧
    (Src.some (Src.wrap (pullCounted (countSrc Unit)))
        (fun _ => Except.ok true) 1 (wrapInit ((0, 0) : Nat × Nat))) =
      (QR.res true, ⟨(1, 1), (), false, false⟩) := by
  refine ⟨?_, by decide, by decide, by decide⟩
  intro σ1 p n fuel
  exact ⟨rfl, rfl, rfl, rfl, rfl, rfl⟩

/-- One step of the take stage over an element-counted parent preserves the
bound: the count of elements consumed never exceeds n, and while the stage
is active the count plus the remaining quota is at most n. -/
theorem take_val_inv (ops : Src σ E T) (n : Nat) (s : AdSt (σ × Nat) Nat)
    (h1 : s.parent.2 ≤ n)
    (h2 : s.closed = false → s.dead = false → s.parent.2 + s.aux ≤ n) :
    ((Src.take (valCounted ops)).next s).2.parent.2 ≤ n ∧
      (((Src.take (valCounted ops)).next s).2.closed = false →
       ((Src.take (valCounted ops)).next s).2.dead = false →
       ((Src.take (valCounted ops)).next s).2.parent.2 +
         ((Src.take (valCounted ops)).next s).2.aux ≤ n) := by
  obtain ⟨⟨q, cnt⟩, a, c, d⟩ := s
  simp only at h1 h2
  cases c with
  | true =>
    have hnext : (Src.take (valCounted ops)).next ⟨(q, cnt), a, true, d⟩ =
        (Pull.done, ⟨(q, cnt), a, true, d⟩) := by
      simp [Src.take, takeNext]
    rw [hnext]
    exact ⟨h1, fun hc _ => by simp at hc⟩
  | false =>
    cases d with
    | true =>
      have hnext : (Src.take (valCounted ops)).next ⟨(q, cnt), a, false, true⟩ =
          (Pull.done, ⟨(q, cnt), a, false, true⟩) := by
        simp [Src.take, takeNext]
      rw [hnext]
      exact ⟨h1, fun _ hd => by simp at hd⟩
    | false =>
      have h3 : cnt + a ≤ n := h2 rfl rfl
      rcases a with _ | k
      · have hnext : (Src.take (valCounted ops)).next
            ⟨(q, cnt), 0, false, false⟩ =
            (Pull.done, ⟨(q, cnt), 0, false, false⟩) := by
          simp [Src.take, takeNext]
        rw [hnext]
        exact ⟨h1, fun _ _ => by simp; omega⟩
      · rcases hpar : ops.next q with ⟨r, q2⟩
        cases r with
        | done =>
          have hnext : (Src.take (valCounted ops)).next
              ⟨(q, cnt), k + 1, false, false⟩ =
              (Pull.done, ⟨(q2, cnt), 0, false, false⟩) := by
            simp [Src.take, takeNext, valCounted, hpar]
          rw [hnext]
          exact ⟨by simp; omega, fun _ _ => by simp; omega⟩
        | hang =>
          have hnext : (Src.take (valCounted ops)).next
              ⟨(q, cnt), k + 1, false, false⟩ =
              (Pull.hang, ⟨(q2, cnt), k + 1, false, false⟩) := by
            simp [Src.take, takeNext, valCounted, hpar]
          rw [hnext]
          exact ⟨by simp; omega, fun _ _ => by simp; omega⟩
        | err e =>
          have hnext : (Src.take (valCounted ops)).next
              ⟨(q, cnt), k + 1, false, false⟩ =
              (Pull.err e, ⟨(q2, cnt), k + 1, false, true⟩) := by
            simp [Src.take, takeNext, valCounted, hpar]
          rw [hnext]
          exact ⟨by simp; omega, fun _ hd => by simp at hd⟩
        | val v =>
          have hnext : (Src.take (valCounted ops)).next
              ⟨(q, cnt), k + 1, false, false⟩ =
              (Pull.val v, ⟨(q2, cnt + 1), k, false, false⟩) := by
            simp [Src.take, takeNext, valCounted, hpar]
          rw [hnext]
          exact ⟨by simp; omega, fun _ _ => by simp; omega⟩

/-- C4: take(n) yields at most n elements, then done permanently, without
consuming an (n+1)-th parent element: over any element-counted parent the
count of consumed elements never exceeds n after any number of pulls;
take(0) reports done at once with the state (parent included) untouched;
and take(3) over the infinite counting source yields exactly the three
elements 0, 1, 2 with the parent advanced exactly three times, after which
every pull reports done with the state fixed. -/
theorem C4_take_at_most_n (E T : Type) :
    (∀ (σ : Type) (ops : Src σ E T) (n : Nat) (p : σ) (k : Nat),
      (nexts (Src.take (valCounted ops)) k (takeInit n (p, 0))).parent.2
        ≤ n) ∧
    (∀ (σ : Type) (ops : Src σ E T) (p : σ),
      (Src.take ops).next (takeInit 0 p) = (Pull.done, takeInit 0 p)) ∧
    collectN (Src.take (countSrc Unit)) 5 (takeInit 3 (0 : Nat)) =
      ([0, 1, 2], ⟨3, 0, false, false⟩) ∧
    (∀ k, Done (Src.take (countSrc Unit))
      (nexts (Src.take (countSrc Unit)) k
        (⟨3, 0, false, false⟩ : AdSt Nat Nat))) := by
  refine ⟨?_, ?_, by decide, ?_⟩
  · intro σ1 ops n p k
    have main : ∀ (j : Nat) (s : AdSt (σ1 × Nat) Nat), s.parent.2 ≤ n →
        (s.closed = false → s.dead = false → s.parent.2 + s.aux ≤ n) →
        (nexts (Src.take (valCounted ops)) j s).parent.2 ≤ n := by
      intro j
      induction j with
      | zero => intro s h1 _; exact h1
      | succ j ih =>
        intro s h1 h2
        rw [nexts_succ]
        have step := take_val_inv ops n s h1 h2
        exact ih _ step.1 step.2
    exact main k (takeInit n (p, 0)) (by simp [takeInit, mkAd])
      (by simp [takeInit, mkAd])
  · intro σ1 ops p
    simp [Src.take, takeNext, takeInit, mkAd]
  · exact done_fixpoint _ _ (by decide)

/-- Witness for C4: with the fibonacci source as parent, after seven pulls
on take(2) the element count of the parent is still at most two; and
take(0) over the fibonacci source reports done leaving the state alone. -/
theorem C4_take_at_most_n_witness :
    (nexts (Src.take (valCounted (fibonacci Unit))) 7
      (takeInit 2 (fibInit 100, 0))).parent.2 ≤ 2 ∧
    (Src.take (fibonacci Unit)).next (takeInit 0 (fibInit 100)) =
      (Pull.done, takeInit 0 (fibInit 100)) :=
  ⟨(C4_take_at_most_n Unit Int).1 FibSt (fibonacci Unit) 2 (fibInit 100) 7,
   (C4_take_at_most_n Unit Int).2.1 FibSt (fibonacci Unit) (fibInit 100)⟩

/-- C5: map(fn) pulls exactly one parent element per pull: on an active
state whose parent yields a value it advances the parent by exactly that
one pull, yields fn(value, runningIndex) and increments the running index
by one; a parent done is propagated as-is with the index untouched; the
running index starts at 0; consequently map(x=>2*x) over the list source
[1,2,3,4,5] yields [2,4,6,8,10] in that order and then done. -/
theorem C5_map_one_pull_per_pull (E T U : Type) :
    (∀ (σ : Type) (ops : Src σ E T) (fn : T → Nat → Except E U)
        (s : AdSt σ Nat) (v : T) (u : U) (p2 : σ),
      s.closed = false → s.dead = false →
      ops.next s.parent = (Pull.val v, p2) → fn v s.aux = Except.ok u →
      (Src.map ops fn).next s = (Pull.val u, ⟨p2, s.aux + 1, false, false⟩)) ∧
    (∀ (σ : Type) (ops : Src σ E T) (fn : T → Nat → Except E U)
        (s : AdSt σ Nat) (p2 : σ),
      s.closed = false → s.dead = false →
      ops.next s.parent = (Pull.done, p2) →
      (Src.map ops fn).next s = (Pull.done, ⟨p2, s.aux, false, false⟩)) ∧
    (∀ (σ : Type) (p : σ), (mapInit p).aux = 0) ∧
    collectN (Src.map (listSrc Unit Nat)
        (fun x _ => (Except.ok (2 * x) : Except Unit Nat))) 6
        (mapInit [1, 2, 3, 4, 5]) =
      ([2, 4, 6, 8, 10], ⟨[], 5, false, false⟩) ∧
    (Src.map (listSrc Unit Nat)
        (fun x _ => (Except.ok (2 * x) : Except Unit Nat))).next
        ⟨[], 5, false, false⟩ =
      (Pull.done, ⟨[], 5, false, false⟩) := by
  refine ⟨?_, ?_, fun σ1 p => rfl, by decide, by decide⟩
  · intro σ1 ops fn s v u p2 hc hd hpar hfn
    simp [Src.map, mapNext, hc, hd, hpar, hfn]
  · intro σ1 ops fn s p2 hc hd hpar
    simp [Src.map, mapNext, hc, hd, hpar]

/-- Witness for C5: on the list source [1,2,3,4,5] with doubling mapper,
the first pull of the map stage yields 2 advancing the parent one element,
and over the exhausted list source a pull propagates done. -/
theorem C5_map_one_pull_per_pull_witness :
    (Src.map (listSrc Unit Nat)
        (fun x _ => (Except.ok (2 * x) : Except Unit Nat))).next
      (mapInit [1, 2, 3, 4, 5]) =
      (Pull.val 2, ⟨[2, 3, 4, 5], 0 + 1, false, false⟩) ∧
    (Src.map (listSrc Unit Nat)
        (fun x _ => (Except.ok (2 * x) : Except Unit Nat))).next
      (mapInit []) = (Pull.done, ⟨[], 0, false, false⟩) :=
  ⟨(C5_map_one_pull_per_pull Unit Nat Nat).1 (List Nat) (listSrc Unit Nat)
      (fun x _ => Except.ok (2 * x)) (mapInit [1, 2, 3, 4, 5]) 1 2
      [2, 3, 4, 5] rfl rfl rfl rfl,
   (C5_map_one_pull_per_pull Unit Nat Nat).2.1 (List Nat) (listSrc Unit Nat)
      (fun x _ => Except.ok (2 * x)) (mapInit []) [] rfl rfl rfl⟩

/-- C6: filter(pred) pulls repeatedly from the parent discarding failing
elements until one passes or the parent exhausts: over any list source the
filter loop with fuel beyond the list length answers with the first
element satisfying the predicate, or done when there is none; and
filter(x=>x>10) over the list source [1,2,3] consumes the whole parent,
yields zero elements and reports done on every subsequent pull with the
state fixed. -/
theorem C6_filter_discards_until_match (E : Type) :
    (∀ (T1 : Type) (l : List T1) (p : T1 → Bool),
      (filterGo (listSrc E T1) (fun x => Except.ok (p x))
          (l.length + 1) l).1 =
        (match l.find? p with
          | some v => Pull.val v
          | none => Pull.done)) ∧
    (Src.filter (listSrc Unit Nat)
        (fun x => (Except.ok (decide (10 < x)) : Except Unit Bool))).next
        (filterInit 4 [1, 2, 3]) =
      (Pull.done, ⟨[], 4, false, false⟩) ∧
    (∀ k, Done (Src.filter (listSrc Unit Nat)
        (fun x => (Except.ok (decide (10 < x)) : Except Unit Bool)))
      (nexts (Src.filter (listSrc Unit Nat)
          (fun x => (Except.ok (decide (10 < x)) : Except Unit Bool))) k
        (⟨[], 4, false, false⟩ : AdSt (List Nat) Nat))) := by
  refine ⟨?_, by decide, done_fixpoint _ _ (by decide)⟩
  intro T1 l p
  induction l with
  | nil => simp [filterGo, listSrc]
  | cons x xs ih =>
    cases hx : p x with
    | true => simp [filterGo, listSrc, hx]
    | false => simpa [filterGo, listSrc, hx] using ih

/-- Over a pull-counted list source, some(pred) answers whether any element
matches, and its pull count is exactly the prefix of non-matching elements
plus one (the matching pull, or the exhausting pull when none matches). -/
theorem some_list (E T : Type) (p : T → Bool) :
    ∀ (l : List T) (c : Nat),
      (Src.some (Src.wrap (pullCounted (listSrc E T)))
          (fun x => Except.ok (p x)) (l.length + 1)
          (wrapInit (l, c))).1 = QR.res (l.any p) ∧
      (Src.some (Src.wrap (pullCounted (listSrc E T)))
          (fun x => Except.ok (p x)) (l.length + 1)
          (wrapInit (l, c))).2.parent.2 =
        c + (l.takeWhile (fun x => !p x)).length + 1 := by
  intro l
  induction l with
  | nil =>
    intro c
    constructor <;>
      simp [Src.some, Src.wrap, wrapNext, wrapInit, mkAd, pullCounted,
        listSrc, deadOf]
  | cons x xs ih =>
    intro c
    cases hx : p x with
    | true =>
      constructor <;>
        simp [Src.some, Src.wrap, wrapNext, wrapInit, mkAd, pullCounted,
          listSrc, deadOf, hx, List.takeWhile_cons]
    | false =>
      have hstep : Src.some (Src.wrap (pullCounted (listSrc E T)))
          (fun y => Except.ok (p y)) ((x :: xs).length + 1)
          (wrapInit ((x :: xs, c) : List T × Nat)) =
          Src.some (Src.wrap (pullCounted (listSrc E T)))
          (fun y => Except.ok (p y)) (xs.length + 1)
          (wrapInit ((xs, c + 1) : List T × Nat)) := by
        simp [Src.some, Src.wrap, wrapNext, wrapInit, mkAd, pullCounted,
          listSrc, deadOf, hx]
      rw [hstep]
      obtain ⟨ha, hb⟩ := ih (c + 1)
      refine ⟨?_, ?_⟩
      · rw [ha]
        simp [hx]
      · rw [hb]
        simp [List.takeWhile_cons, hx]
        omega

/-- Over a pull-counted list source, every(pred) answers whether all
elements match, and its pull count is exactly the prefix of matching
elements plus one (the refuting pull, or the exhausting pull when all
match). -/
theorem every_list (E T : Type) (p : T → Bool) :
    ∀ (l : List T) (c : Nat),
      (Src.every (Src.wrap (pullCounted (listSrc E T)))
          (fun x => Except.ok (p x)) (l.length + 1)
          (wrapInit (l, c))).1 = QR.res (l.all p) ∧
      (Src.every (Src.wrap (pullCounted (listSrc E T)))
          (fun x => Except.ok (p x)) (l.length + 1)
          (wrapInit (l, c))).2.parent.2 =
        c + (l.takeWhile p).length + 1 := by
  intro l
  induction l with
  | nil =>
    intro c
    constructor <;>
      simp [Src.every, Src.wrap, wrapNext, wrapInit, mkAd, pullCounted,
        listSrc, deadOf]
  | cons x xs ih =>
    intro c
    cases hx : p x with
    | false =>
      constructor <;>
        simp [Src.every, Src.wrap, wrapNext, wrapInit, mkAd, pullCounted,
          listSrc, deadOf, hx, List.takeWhile_cons]
    | true =>
      have hstep : Src.every (Src.wrap (pullCounted (listSrc E T)))
          (fun y => Except.ok (p y)) ((x :: xs).length + 1)
          (wrapInit ((x :: xs, c) : List T × Nat)) =
          Src.every (Src.wrap (pullCounted (listSrc E T)))
          (fun y => Except.ok (p y)) (xs.length + 1)
          (wrapInit ((xs, c + 1) : List T × Nat)) := by
        simp [Src.every, Src.wrap, wrapNext, wrapInit, mkAd, pullCounted,
          listSrc, deadOf, hx]
      rw [hstep]
      obtain ⟨ha, hb⟩ := ih (c + 1)
      refine ⟨?_, ?_⟩
      · rw [ha]
        simp [hx]
      · rw [hb]
        simp [List.takeWhile_cons, hx]
        omega

/-- C7: terminal queries short-circuit.  Over any pull-counted list source,
some(pred) answers whether some element matches, pulling exactly the
non-matching prefix plus the matching element (or the whole list plus the
exhausting pull when none matches), and every(pred) answers whether all
match, pulling exactly the matching prefix plus the refuting element;
concretely some(x=3) over [1,2,3,4,5] answers true after exactly 3 pulls,
and every over the empty source answers true. -/
theorem C7_queries_short_circuit (E T : Type) :
    (∀ (l : List T) (p : T → Bool) (c : Nat),
      (Src.some (Src.wrap (pullCounted (listSrc E T)))
          (fun x => Except.ok (p x)) (l.length + 1)
          (wrapInit (l, c))).1 = QR.res (l.any p) ∧
      (Src.some (Src.wrap (pullCounted (listSrc E T)))
          (fun x => Except.ok (p x)) (l.length + 1)
          (wrapInit (l, c))).2.parent.2 =
        c + (l.takeWhile (fun x => !p x)).length + 1) ∧
    (∀ (l : List T) (p : T → Bool) (c : Nat),
      (Src.every (Src.wrap (pullCounted (listSrc E T)))
          (fun x => Except.ok (p x)) (l.length + 1)
          (wrapInit (l, c))).1 = QR.res (l.all p) ∧
      (Src.every (Src.wrap (pullCounted (listSrc E T)))
          (fun x => Except.ok (p x)) (l.length + 1)
          (wrapInit (l, c))).2.parent.2 =
        c + (l.takeWhile p).length + 1) ∧
    Src.some (Src.wrap (pullCounted (listSrc Unit Nat)))
        (fun x => (Except.ok (decide (x = 3)) : Except Unit Bool)) 6
        (wrapInit ([1, 2, 3, 4, 5], 0)) =
      (QR.res true, ⟨([4, 5], 3), (), false, false⟩) ∧
    Src.every (Src.wrap (pullCounted (listSrc Unit Nat)))
        (fun _ => (Except.ok false : Except Unit Bool)) 1
        (wrapInit (([] : List Nat), 0)) =
      (QR.res true, ⟨([], 1), (), false, false⟩) := by
  exact ⟨fun l p c => some_list E T p l c,
    fun l p c => every_list E T p l c, by decide, by decide⟩

/-- The filter loop over any list parent computes exactly the expected
answer, in particular surfacing a predicate raise that happens after any
number of discarded elements. -/
theorem filterGo_list (E T : Type) (pr : T → Except E Bool) :
    ∀ l : List T,
      (filterGo (listSrc E T) pr (l.length + 1) l).1 = filterListRes pr l := by
  intro l
  induction l with
  | nil => simp [filterGo, listSrc, filterListRes]
  | cons x xs ih =>
    rcases hx : pr x with e | b
    · simp [filterGo, listSrc, filterListRes, hx]
    · cases b with
      | true => simp [filterGo, listSrc, filterListRes, hx]
      | false => simpa [filterGo, listSrc, filterListRes, hx] using ih

/-- Whenever a filter pull reports an error, wherever in the discarding
loop it arose, the stage is left dead and every later pull reports done. -/
theorem filter_err_dead (ops : Src σ E T) (pred : T → Except E Bool)
    (s s2 : AdSt σ Nat) (e : E)
    (h : (Src.filter ops pred).next s = (Pull.err e, s2)) :
    s2.dead = true ∧ AllDone (Src.filter ops pred) s2 := by
  obtain ⟨p, a, c, d⟩ := s
  cases c with
  | true => simp [Src.filter, filterNext] at h
  | false =>
    cases d with
    | true => simp [Src.filter, filterNext] at h
    | false =>
      rcases hg : filterGo ops pred a p with ⟨rg, pg⟩
      simp [Src.filter, filterNext, hg] at h
      obtain ⟨hrg, hs2⟩ := h
      subst hrg
      subst hs2
      refine ⟨by simp [deadOf], ?_⟩
      exact done_fixpoint _ _ (by simp [Src.filter, filterNext, deadOf])

/-- Whenever a flatMap pull reports an error, wherever in its loop it
arose, the stage is left dead and every later pull reports done. -/
theorem flat_err_dead (ops : Src σ E T) (nops : Src ρ E U)
    (fn : T → Except E ρ) (s s2 : AdSt σ (Option ρ × Nat)) (e : E)
    (h : (Src.flatMap ops nops fn).next s = (Pull.err e, s2)) :
    s2.dead = true ∧ AllDone (Src.flatMap ops nops fn) s2 := by
  obtain ⟨p, a, c, d⟩ := s
  cases c with
  | true => simp [Src.flatMap, flatNext] at h
  | false =>
    cases d with
    | true => simp [Src.flatMap, flatNext] at h
    | false =>
      rcases hg : flatGo ops nops fn a.2 p a.1 with ⟨rg, pg2⟩
      simp [Src.flatMap, flatNext, hg] at h
      obtain ⟨hrg, hs2⟩ := h
      subst hrg
      subst hs2
      refine ⟨by simp [deadOf], ?_⟩
      exact done_fixpoint _ _ (by simp [Src.flatMap, flatNext, deadOf])

/-- A wrap pull reporting an error leaves the stage dead. -/
theorem wrap_err_dead (ops0 : Src σ E T) (s s2 : AdSt σ Unit) (e : E)
    (h : (Src.wrap ops0).next s = (Pull.err e, s2)) : s2.dead = true := by
  obtain ⟨p, a, c, d⟩ := s
  cases c with
  | true => simp [Src.wrap, wrapNext] at h
  | false =>
    cases d with
    | true => simp [Src.wrap, wrapNext] at h
    | false =>
      rcases hpar : ops0.next p with ⟨r, p2⟩
      simp [Src.wrap, wrapNext, hpar] at h
      obtain ⟨hrg, hs2⟩ := h
      subst hrg
      subst hs2
      simp [deadOf]

/-- A dead wrap state reports done on every future pull. -/
theorem wrap_dead_allDone (ops0 : Src σ E T) (s : AdSt σ Unit)
    (hd : s.dead = true) : AllDone (Src.wrap ops0) s := by
  refine done_fixpoint _ _ ?_
  simp [Src.wrap, wrapNext, hd]

/-- Whenever some(pred) reports an error, wherever in the query loop it
arose, the adapter is left dead. -/
theorem some_err_dead (ops0 : Src σ E T) (pred : T → Except E Bool) :
    ∀ (fuel : Nat) (s : AdSt σ Unit) (e : E),
      (Src.some (Src.wrap ops0) pred fuel s).1 = QR.err e →
      (Src.some (Src.wrap ops0) pred fuel s).2.dead = true := by
  intro fuel
  induction fuel with
  | zero => intro s e h; simp [Src.some] at h
  | succ fuel ih =>
    intro s e h
    rcases hnext : (Src.wrap ops0).next s with ⟨r, s2⟩
    cases r with
    | done => simp [Src.some, hnext] at h
    | hang => simp [Src.some, hnext] at h
    | err e2 =>
      have hd := wrap_err_dead ops0 s s2 e2 hnext
      simpa [Src.some, hnext] using hd
    | val v =>
      rcases hx : pred v with e3 | b
      · simp [Src.some, hnext, hx, kill]
      · cases b with
        | true => simp [Src.some, hnext, hx] at h
        | false =>
          have h2 : (Src.some (Src.wrap ops0) pred fuel s2).1 = QR.err e := by
            simpa [Src.some, hnext, hx] using h
          simpa [Src.some, hnext, hx] using ih s2 e h2

/-- Whenever every(pred) reports an error, wherever in the query loop it
arose, the adapter is left dead. -/
theorem every_err_dead (ops0 : Src σ E T) (pred : T → Except E Bool) :
    ∀ (fuel : Nat) (s : AdSt σ Unit) (e : E),
      (Src.every (Src.wrap ops0) pred fuel s).1 = QR.err e →
      (Src.every (Src.wrap ops0) pred fuel s).2.dead = true := by
  intro fuel
  induction fuel with
  | zero => intro s e h; simp [Src.every] at h
  | succ fuel ih =>
    intro s e h
    rcases hnext : (Src.wrap ops0).next s with ⟨r, s2⟩
    cases r with
    | done => simp [Src.every, hnext] at h
    | hang => simp [Src.every, hnext] at h
    | err e2 =>
      have hd := wrap_err_dead ops0 s s2 e2 hnext
      simpa [Src.every, hnext] using hd
    | val v =>
      rcases hx : pred v with e3 | b
      · simp [Src.every, hnext, hx, kill]
      · cases b with
        | false => simp [Src.every, hnext, hx] at h
        | true =>
          have h2 : (Src.every (Src.wrap ops0) pred fuel s2).1 = QR.err e := by
            simpa [Src.every, hnext, hx] using h
          simpa [Src.every, hnext, hx] using ih s2 e h2

/-- Whenever find(pred) reports an error, wherever in the query loop it
arose, the adapter is left dead. -/
theorem find_err_dead (ops0 : Src σ E T) (pred : T → Except E Bool) :
    ∀ (fuel : Nat) (s : AdSt σ Unit) (e : E),
      (Src.find (Src.wrap ops0) pred fuel s).1 = QR.err e →
      (Src.find (Src.wrap ops0) pred fuel s).2.dead = true := by
  intro fuel
  induction fuel with
  | zero => intro s e h; simp [Src.find] at h
  | succ fuel ih =>
    intro s e h
    rcases hnext : (Src.wrap ops0).next s with ⟨r, s2⟩
    cases r with
    | done => simp [Src.find, hnext] at h
    | hang => simp [Src.find, hnext] at h
    | err e2 =>
      have hd := wrap_err_dead ops0 s s2 e2 hnext
      simpa [Src.find, hnext] using hd
    | val v =>
      rcases hx : pred v with e3 | b
      · simp [Src.find, hnext, hx, kill]
      · cases b with
        | true => simp [Src.find, hnext, hx] at h
        | false =>
          have h2 : (Src.find (Src.wrap ops0) pred fuel s2).1 = QR.err e := by
            simpa [Src.find, hnext, hx] using h
          simpa [Src.find, hnext, hx] using ih s2 e h2

/-- some(pred) over a wrapped list source computes exactly the expected
answer, in particular surfacing a predicate raise that happens after any
number of non-matching elements. -/
theorem some_wrap_list (E T : Type) (pr : T → Except E Bool) :
    ∀ l : List T,
      (Src.some (Src.wrap (listSrc E T)) pr (l.length + 1)
        (wrapInit l)).1 = someListRes pr l := by
  intro l
  induction l with
  | nil =>
    simp [Src.some, Src.wrap, wrapNext, wrapInit, mkAd, listSrc,
      someListRes, deadOf]
  | cons x xs ih =>
    have hnext : (Src.wrap (listSrc E T)).next (wrapInit (x :: xs)) =
        (Pull.val x, wrapInit xs) := by
      simp [Src.wrap, wrapNext, wrapInit, mkAd, listSrc, deadOf]
    rcases hx : pr x with e | b
    · simp [Src.some, hnext, hx, someListRes]
    · cases b with
      | true => simp [Src.some, hnext, hx, someListRes]
      | false => simpa [Src.some, hnext, hx, someListRes] using ih

/-- every(pred) over a wrapped list source computes exactly the expected
answer, in particular surfacing a predicate raise that happens after any
number of matching elements. -/
theorem every_wrap_list (E T : Type) (pr : T → Except E Bool) :
    ∀ l : List T,
      (Src.every (Src.wrap (listSrc E T)) pr (l.length + 1)
        (wrapInit l)).1 = everyListRes pr l := by
  intro l
  induction l with
  | nil =>
    simp [Src.every, Src.wrap, wrapNext, wrapInit, mkAd, listSrc,
      everyListRes, deadOf]
  | cons x xs ih =>
    have hnext : (Src.wrap (listSrc E T)).next (wrapInit (x :: xs)) =
        (Pull.val x, wrapInit xs) := by
      simp [Src.wrap, wrapNext, wrapInit, mkAd, listSrc, deadOf]
    rcases hx : pr x with e | b
    · simp [Src.every, hnext, hx, everyListRes]
    · cases b with
      | false => simp [Src.every, hnext, hx, everyListRes]
      | true => simpa [Src.every, hnext, hx, everyListRes] using ih

/-- find(pred) over a wrapped list source computes exactly the expected
answer, in particular surfacing a predicate raise that happens after any
number of non-matching elements. -/
theorem find_wrap_list (E T : Type) (pr : T → Except E Bool) :
    ∀ l : List T,
      (Src.find (Src.wrap (listSrc E T)) pr (l.length + 1)
        (wrapInit l)).1 = findListRes pr l := by
  intro l
  induction l with
  | nil =>
    simp [Src.find, Src.wrap, wrapNext, wrapInit, mkAd, listSrc,
      findListRes, deadOf]
  | cons x xs ih =>
    have hnext : (Src.wrap (listSrc E T)).next (wrapInit (x :: xs)) =
        (Pull.val x, wrapInit xs) := by
      simp [Src.wrap, wrapNext, wrapInit, mkAd, listSrc, deadOf]
    rcases hx : pr x with e | b
    · simp [Src.find, hnext, hx, findListRes]
    · cases b with
      | true => simp [Src.find, hnext, hx, findListRes]
      | false => simpa [Src.find, hnext, hx, findListRes] using ih

/-- C8: a raising mapper, predicate or flatMap generator propagates its
error unmodified to the caller and leaves the adapter exhausted.  For map
the raise at the (single) pulled element reports exactly the raised error
with the dead latch set and every later pull done.  For filter and the
terminal queries some, every and find, the loop over any list parent is
characterized exactly, surfacing a predicate raise that happens after any
number of discarded or non-matching elements, and any error-reporting pull
or query, wherever in the loop the raise arose, leaves the stage dead with
every later pull done.  For flatMap, a generator raise is covered both at
the next parent element and after a nested source exhausts mid-call, and
any error-reporting pull leaves the stage dead with every later pull
done. -/
theorem C8_error_propagates_then_exhausted (E T U ρ : Type) :
    (∀ (σ : Type) (ops : Src σ E T) (fn : T → Nat → Except E U)
        (s : AdSt σ Nat) (v : T) (p2 : σ) (e : E),
      s.closed = false → s.dead = false →
      ops.next s.parent = (Pull.val v, p2) → fn v s.aux = Except.error e →
      (Src.map ops fn).next s = (Pull.err e, ⟨p2, s.aux, false, true⟩) ∧
      AllDone (Src.map ops fn) ⟨p2, s.aux, false, true⟩) ∧
    (∀ (σ : Type) (ops : Src σ E T) (pred : T → Except E Bool)
        (s : AdSt σ Nat) (v : T) (p2 : σ) (e : E) (fuel : Nat),
      s.closed = false → s.dead = false → s.aux = fuel + 1 →
      ops.next s.parent = (Pull.val v, p2) → pred v = Except.error e →
      (Src.filter ops pred).next s =
        (Pull.err e, ⟨p2, s.aux, false, true⟩) ∧
      AllDone (Src.filter ops pred) ⟨p2, s.aux, false, true⟩) ∧
    (∀ (l : List T) (pr : T → Except E Bool),
      (filterGo (listSrc E T) pr (l.length + 1) l).1 = filterListRes pr l) ∧
    (∀ (σ : Type) (ops : Src σ E T) (pred : T → Except E Bool)
        (s s2 : AdSt σ Nat) (e : E),
      (Src.filter ops pred).next s = (Pull.err e, s2) →
      s2.dead = true ∧ AllDone (Src.filter ops pred) s2) ∧
    (∀ (σ : Type) (ops : Src σ E T) (nops : Src ρ E U)
        (fn : T → Except E ρ) (s : AdSt σ (Option ρ × Nat)) (t : T)
        (p2 : σ) (e : E) (fuel : Nat),
      s.closed = false → s.dead = false → s.aux = (none, fuel + 1) →
      ops.next s.parent = (Pull.val t, p2) → fn t = Except.error e →
      (Src.flatMap ops nops fn).next s =
        (Pull.err e, ⟨p2, (none, fuel + 1), false, true⟩) ∧
      AllDone (Src.flatMap ops nops fn) ⟨p2, (none, fuel + 1), false, true⟩) ∧
    (∀ (σ : Type) (ops : Src σ E T) (nops : Src ρ E U)
        (fn : T → Except E ρ) (s : AdSt σ (Option ρ × Nat)) (t : T)
        (p2 : σ) (e : E) (r0 r1 : ρ) (fuel : Nat),
      s.closed = false → s.dead = false → s.aux = (some r0, fuel + 2) →
      nops.next r0 = (Pull.done, r1) →
      ops.next s.parent = (Pull.val t, p2) → fn t = Except.error e →
      (Src.flatMap ops nops fn).next s =
        (Pull.err e, ⟨p2, (none, fuel + 2), false, true⟩)) ∧
    (∀ (σ : Type) (ops : Src σ E T) (nops : Src ρ E U)
        (fn : T → Except E ρ) (s s2 : AdSt σ (Option ρ × Nat)) (e : E),
      (Src.flatMap ops nops fn).next s = (Pull.err e, s2) →
      s2.dead = true ∧ AllDone (Src.flatMap ops nops fn) s2) ∧
    (∀ (σ : Type) (ops0 : Src σ E T) (pred : T → Except E Bool)
        (s s2 : AdSt σ Unit) (v : T) (e : E) (fuel : Nat),
      (Src.wrap ops0).next s = (Pull.val v, s2) → pred v = Except.error e →
      Src.some (Src.wrap ops0) pred (fuel + 1) s = (QR.err e, kill s2) ∧
      Src.every (Src.wrap ops0) pred (fuel + 1) s = (QR.err e, kill s2) ∧
      Src.find (Src.wrap ops0) pred (fuel + 1) s = (QR.err e, kill s2) ∧
      AllDone (Src.wrap ops0) (kill s2)) ∧
    (∀ (l : List T) (pr : T → Except E Bool),
      (Src.some (Src.wrap (listSrc E T)) pr (l.length + 1)
        (wrapInit l)).1 = someListRes pr l ∧
      (Src.every (Src.wrap (listSrc E T)) pr (l.length + 1)
        (wrapInit l)).1 = everyListRes pr l ∧
      (Src.find (Src.wrap (listSrc E T)) pr (l.length + 1)
        (wrapInit l)).1 = findListRes pr l) ∧
    (∀ (σ : Type) (ops0 : Src σ E T) (pred : T → Except E Bool)
        (fuel : Nat) (s : AdSt σ Unit) (e : E),
      ((Src.some (Src.wrap ops0) pred fuel s).1 = QR.err e →
        (Src.some (Src.wrap ops0) pred fuel s).2.dead = true ∧
        AllDone (Src.wrap ops0) (Src.some (Src.wrap ops0) pred fuel s).2) ∧
      ((Src.every (Src.wrap ops0) pred fuel s).1 = QR.err e →
        (Src.every (Src.wrap ops0) pred fuel s).2.dead = true ∧
        AllDone (Src.wrap ops0) (Src.every (Src.wrap ops0) pred fuel s).2) ∧
      ((Src.find (Src.wrap ops0) pred fuel s).1 = QR.err e →
        (Src.find (Src.wrap ops0) pred fuel s).2.dead = true ∧
        AllDone (Src.wrap ops0)
          (Src.find (Src.wrap ops0) pred fuel s).2)) := by
  refine ⟨?_, ?_, ?_, ?_, ?_, ?_, ?_, ?_, ?_, ?_⟩
  · intro σ1 ops fn s v p2 e hc hd hpar hfn
    constructor
    · simp [Src.map, mapNext, hc, hd, hpar, hfn]
    · exact done_fixpoint _ _ (by simp [Src.map, mapNext])
  · intro σ1 ops pred s v p2 e fuel hc hd haux hpar hfn
    constructor
    · rw [haux]
      simp [Src.filter, filterNext, hc, hd, haux, filterGo, hpar, hfn,
        deadOf]
    · exact done_fixpoint _ _ (by simp [Src.filter, filterNext])
  · exact fun l pr => filterGo_list E T pr l
  · exact fun σ1 ops pred s s2 e h => filter_err_dead ops pred s s2 e h
  · intro σ1 ops nops fn s t p2 e fuel hc hd haux hpar hfn
    constructor
    · simp [Src.flatMap, flatNext, hc, hd, haux, flatGo, hpar, hfn, deadOf]
    · exact done_fixpoint _ _ (by simp [Src.flatMap, flatNext])
  · intro σ1 ops nops fn s t p2 e r0 r1 fuel hc hd haux hn hpar hfn
    simp [Src.flatMap, flatNext, hc, hd, haux, flatGo, hn, hpar, hfn,
      deadOf]
  · exact fun σ1 ops nops fn s s2 e h => flat_err_dead ops nops fn s s2 e h
  · intro σ1 ops0 pred s s2 v e fuel hnext hfn
    refine ⟨?_, ?_, ?_, ?_⟩
    · simp [Src.some, hnext, hfn]
    · simp [Src.every, hnext, hfn]
    · simp [Src.find, hnext, hfn]
    · exact done_fixpoint _ _ (by simp [Src.wrap, wrapNext, kill])
  · exact fun l pr => ⟨some_wrap_list E T pr l, every_wrap_list E T pr l,
      find_wrap_list E T pr l⟩
  · intro σ1 ops0 pred fuel s e
    refine ⟨fun h => ?_, fun h => ?_, fun h => ?_⟩
    · have hd := some_err_dead ops0 pred fuel s e h
      exact ⟨hd, wrap_dead_allDone ops0 _ hd⟩
    · have hd := every_err_dead ops0 pred fuel s e h
      exact ⟨hd, wrap_dead_allDone ops0 _ hd⟩
    · have hd := find_err_dead ops0 pred fuel s e h
      exact ⟨hd, wrap_dead_allDone ops0 _ hd⟩

/-- Witness for C8: over the list source [1] a mapper raising the unit
error makes the pull report that error and one pull later the stage
reports done; a predicate raising only at the second element makes the
filter pull report that error after discarding the first element and
leaves the stage dead with the next pull done; and some() with that
predicate over the wrapped list source [1,2] reports the error after
passing the first element. -/
theorem C8_error_propagates_then_exhausted_witness :
    (Src.map (listSrc Unit Nat)
        (fun _ _ => (Except.error () : Except Unit Nat))).next
      (mapInit [1]) = (Pull.err (), ⟨[], 0, false, true⟩) ∧
    Done (Src.map (listSrc Unit Nat)
        (fun _ _ => (Except.error () : Except Unit Nat)))
      (nexts (Src.map (listSrc Unit Nat)
        (fun _ _ => (Except.error () : Except Unit Nat))) 1
        (⟨[], 0, false, true⟩ : AdSt (List Nat) Nat)) ∧
    ((⟨[], 3, false, true⟩ : AdSt (List Nat) Nat).dead = true ∧
      Done (Src.filter (listSrc Unit Nat)
          (fun x => if x = 1 then (Except.ok false : Except Unit Bool)
            else Except.error ()))
        (nexts (Src.filter (listSrc Unit Nat)
            (fun x => if x = 1 then (Except.ok false : Except Unit Bool)
              else Except.error ())) 1
          (⟨[], 3, false, true⟩ : AdSt (List Nat) Nat))) ∧
    (Src.some (Src.wrap (listSrc Unit Nat))
        (fun x => if x = 1 then (Except.ok false : Except Unit Bool)
          else Except.error ()) 3 (wrapInit [1, 2])).1 =
      someListRes (fun x => if x = 1 then (Except.ok false : Except Unit Bool)
        else Except.error ()) [1, 2] := by
  have h1 := (C8_error_propagates_then_exhausted Unit Nat Nat Unit).1
    (List Nat) (listSrc Unit Nat) (fun _ _ => Except.error ())
    (mapInit [1]) 1 [] () rfl rfl rfl rfl
  have h2 := (C8_error_propagates_then_exhausted Unit Nat Nat Unit).2.2.2.1
    (List Nat) (listSrc Unit Nat)
    (fun x => if x = 1 then (Except.ok false : Except Unit Bool)
      else Except.error ())
    (filterInit 3 [1, 2]) ⟨[], 3, false, true⟩ () (by decide)
  have h3 := (C8_error_propagates_then_exhausted Unit Nat Nat
    Unit).2.2.2.2.2.2.2.2.1 [1, 2]
    (fun x => if x = 1 then (Except.ok false : Except Unit Bool)
      else Except.error ())
  exact ⟨h1.1, h1.2 1, ⟨h2.1, h2.2 1⟩, h3.1⟩

/-- C9: return() and throw() never raise.  The shared close delegation of
every adapter stage always reports completion, whatever the parent close
operation does; concretely, on a map over a wrap of a list source whose
close operations themselves raise, return() and throw() both report
completion, the failure is swallowed, and the closed chain pulls to done. -/
theorem C9_close_never_raises (E : Type) :
    (∀ (σ α : Type) (pclose : σ → Option E × σ) (s : AdSt σ α),
      (closeAd pclose s).1 = none) ∧
    (Src.map (Src.wrap (failClose (listSrc Unit Nat) ()))
        (fun x _ => (Except.ok x : Except Unit Nat))).closeN
      (mapInit (wrapInit [1, 2])) =
      (none, ⟨⟨[1, 2], (), true, false⟩, 0, true, false⟩) ∧
    (Src.map (Src.wrap (failClose (listSrc Unit Nat) ()))
        (fun x _ => (Except.ok x : Except Unit Nat))).closeE
      (mapInit (wrapInit [1, 2])) =
      (none, ⟨⟨[1, 2], (), true, false⟩, 0, true, false⟩) ∧
    (Src.map (Src.wrap (failClose (listSrc Unit Nat) ()))
        (fun x _ => (Except.ok x : Except Unit Nat))).next
      ⟨⟨[1, 2], (), true, false⟩, 0, true, false⟩ =
      (Pull.done, ⟨⟨[1, 2], (), true, false⟩, 0, true, false⟩) := by
  refine ⟨?_, by decide, by decide, by decide⟩
  intro σ1 α1 pclose s
  obtain ⟨p, a, c, d⟩ := s
  cases c <;> simp [closeAd]

end Arm5
